import Mathlib

/-!
Verification of the pitch-track-to-note transcription engine of this repository.

The definitions below are a shallow embedding of the Python source in
`module/sub/c_rosvot_to_midi.py` and `module/sub/d_analyze_midi_results.py`.
Frame values and times (Python floats) are modelled as exact rationals `ℚ`;
the one genuinely real-valued computation (`np.log2` inside
`MIDIConverter.hz_to_midi_note`) is modelled over `ℝ` with `Real.logb`.
Note records (`pretty_midi.Note`) become the structure `MNote`; the Python
field `end` is called `stop` here because `end` is a Lean keyword.
-/

namespace Rosvot

/-- Embedding of a `pretty_midi.Note`: pitch, velocity, start and end time
(the `end` field of the Python object is called `stop` here). -/
structure MNote where
  pitch : ℤ
  velocity : ℤ
  start : ℚ
  stop : ℚ
deriving DecidableEq, Repr

/-! ### Merger: `MIDIConverter._merge_short_splits` -/

/-- Merge condition of `_merge_short_splits`: the next note `n` is absorbed
into the previous note `prev` when it has the same pitch and follows within
`gap` seconds (`n.pitch == prev.pitch and (n.start - prev.end) <= gap_thresh`). -/
def mergeCond (gap : ℚ) (prev n : MNote) : Prop :=
  n.pitch = prev.pitch ∧ n.start - prev.stop ≤ gap

instance (gap : ℚ) (prev n : MNote) : Decidable (mergeCond gap prev n) := by
  unfold mergeCond; infer_instance

/-- Loop of `_merge_short_splits`: `prev` is the currently last element of the
`merged` list (mutable in Python); absorbing a note sets `prev.end = n.end`. -/
def mergeGo (gap : ℚ) : MNote → List MNote → List MNote
  | prev, [] => [prev]
  | prev, n :: rest =>
    if mergeCond gap prev n then
      mergeGo gap ⟨prev.pitch, prev.velocity, prev.start, n.stop⟩ rest
    else
      prev :: mergeGo gap n rest

/-- Embedding of `MIDIConverter._merge_short_splits(notes, gap_thresh)`. -/
def merge_short_splits (notes : List MNote) (gap : ℚ) : List MNote :=
  match notes with
  | [] => []
  | n :: rest => mergeGo gap n rest

/-! ### Calibrator: `MIDIConverter._infer_time_per_frame` -/

/-- Embedding of `MIDIConverter._infer_time_per_frame`.  The probed audio
duration is `some d` on success and `none` when probing raised (the Python
`except` path).  The code computes `tpf_est = dur / max(1, len(pitch))` and
prefers it over `default_tpf` exactly when `0.015 <= tpf_est <= 0.030`. -/
def infer_time_per_frame (dur : Option ℚ) (numFrames : ℕ) (default_tpf : ℚ) : ℚ :=
  match dur with
  | none => default_tpf
  | some d =>
    let est := d / ((max 1 numFrames : ℕ) : ℚ)
    if 15/1000 ≤ est ∧ est ≤ 30/1000 then est else default_tpf

/-! ### Gap Bridger: `MIDIConverter._bridge_unvoiced_gaps` -/

/-- Loop of `_bridge_unvoiced_gaps`.  `pending` holds the original values of
the current maximal run of unvoiced frames (`f0 <= 0`, since the code tests
`f0 > 0`); `left` is the value of the voiced frame just before that run, or
`0` when the run starts at index 0 (the code's `start-1 >= 0` guard).  When a
voiced frame `x` ends a run of length `run` with `0 < run <= max_gap_frames`,
the run is overwritten by `max(fill, 1e-6)` where
`fill = left if right == 0 else (right if left == 0 else (left+right)/2)`;
otherwise the original values are kept.  A run that reaches the end of the
track is never processed, exactly as in the Python loop. -/
def bridgeGo (g : ℕ) : ℚ → List ℚ → List ℚ → List ℚ
  | _, pending, [] => pending
  | left, pending, x :: rest =>
    if 0 < x then
      (if 0 < pending.length ∧ pending.length ≤ g then
        let l := if 0 < left then left else 0
        let r := x
        let fill := if r = 0 then l else if l = 0 then r else (l + r) / 2
        List.replicate pending.length (max fill (1/1000000))
      else pending) ++ x :: bridgeGo g x [] rest
    else
      bridgeGo g left (pending ++ [x]) rest

/-- Embedding of `MIDIConverter._bridge_unvoiced_gaps(f0, max_gap_frames)`. -/
def bridge_unvoiced_gaps (g : ℕ) (f0 : List ℚ) : List ℚ :=
  bridgeGo g 0 [] f0

/-! ### Coverage Analyzer: `MIDIAnalyzer` (d_analyze_midi_results.py) -/

/-- Embedding of `MIDIAnalyzer._find_overlapping_notes(start, end)`: each
returned entry is the pair (overlap_duration, pitch) of its Python dict. -/
def find_overlapping_notes (notes : List MNote) (s e : ℚ) : List (ℚ × ℤ) :=
  notes.filterMap fun n =>
    if n.start < e ∧ s < n.stop then
      some (min n.stop e - max n.start s, n.pitch)
    else none

/-- Embedding of `MIDIAnalyzer._calculate_coverage_ratio(start, end, overlapping_notes)`. -/
def calculate_coverage (s e : ℚ) (ov : List (ℚ × ℤ)) : ℚ :=
  if ov = [] then 0
  else min ((ov.map Prod.fst).sum / (e - s)) 1

/-- Coverage formula as the specification states it (for comparison with the
code's `calculate_coverage`): `min(Σ max(0, min(note.end,e) - max(note.start,s)) / (e-s), 1)`
summed over all notes. -/
def coverageSpec (s e : ℚ) (notes : List MNote) : ℚ :=
  min ((notes.map fun n => max 0 (min n.stop e - max n.start s)).sum / (e - s)) 1

/-! ### Frequency conversion: `MIDIConverter.hz_to_midi_note` -/

/-- Truncation toward zero, the semantics of Python's `int(float)`. -/
noncomputable def pyTrunc (x : ℝ) : ℤ :=
  if 0 ≤ x then ⌊x⌋ else ⌈x⌉

/-- Embedding of `MIDIConverter.hz_to_midi_note(hz)`:
`0 if hz <= 0 else int(69 + 12 * np.log2(hz / 440.0))`.  Identical in the
current module and in the archived copy
(`archive/modules/full_pipeline_sofa_to_midi.py`). -/
noncomputable def hz_to_midi_note (hz : ℚ) : ℤ :=
  if hz ≤ 0 then 0 else pyTrunc (69 + 12 * Real.logb 2 ((hz : ℝ) / 440))

/-- Frequency conversion as the specification states it (for comparison with
the code's `hz_to_midi_note`): round to the NEAREST integer semitone,
`round(69 + 12*log2(f/440))`. -/
noncomputable def hzToMidiNearestSpec (hz : ℚ) : ℤ :=
  round ((69 : ℝ) + 12 * Real.logb 2 ((hz : ℝ) / 440))

/-! ### Segmenter: the frame loop of `MIDIConverter.create_midi_from_pitch` -/

/-- Forced-cut test on a voiced frame: with a non-empty forced label set, a
cut is forced at time `t` when some phoneme interval with a matching label
starts within one frame duration of `t`
(`abs(ps - current_time) <= time_per_frame and ph in force_split_phonemes`). -/
def forceCutV (phons : List (ℚ × ℚ × String)) (forced : List String) (tpf t : ℚ) : Prop :=
  forced ≠ [] ∧ ∃ x ∈ phons, |x.1 - t| ≤ tpf ∧ x.2.2 ∈ forced

instance (phons : List (ℚ × ℚ × String)) (forced : List String) (tpf t : ℚ) :
    Decidable (forceCutV phons forced tpf t) := by
  unfold forceCutV; infer_instance

/-- Forced-cut test on an unvoiced frame: with a non-empty forced label set,
the open run is emitted even when short when some phoneme interval with a
matching label starts at or after the current time
(`ps >= current_time and ph in force_split_phonemes`). -/
def forceCutU (phons : List (ℚ × ℚ × String)) (forced : List String) (t : ℚ) : Prop :=
  forced ≠ [] ∧ ∃ x ∈ phons, t ≤ x.1 ∧ x.2.2 ∈ forced

instance (phons : List (ℚ × ℚ × String)) (forced : List String) (t : ℚ) :
    Decidable (forceCutU phons forced t) := by
  unfold forceCutU; infer_instance

/-- The frame loop of `create_midi_from_pitch`.  `i` is the frame index
(`current_time = i * time_per_frame`), `cur` is `None` or the open run
`(current_note, current_start_time)`.  A voiced frame (`pitch_hz > 0`) either
opens a run, continues it (pitch within 0.5 of the run's pitch and no forced
cut), or closes it — emitting the note when its duration reaches
`min_note_duration` or a forced cut applies — and reopens at the new pitch.
An unvoiced frame closes any open run, emitting subject to the duration gate
or the unvoiced forced-cut test.  At the end of the track an open run is
closed at `len(pitch_data) * time_per_frame` subject to the duration gate
alone.  Emitted notes carry velocity 80. -/
noncomputable def segGo (tpf minNote : ℚ) (phons : List (ℚ × ℚ × String))
    (forced : List String) : List ℚ → ℕ → Option (ℤ × ℚ) → List MNote
  | [], i, cur =>
    match cur with
    | none => []
    | some (p, st) =>
      if minNote ≤ (i : ℚ) * tpf - st then [⟨p, 80, st, (i : ℚ) * tpf⟩] else []
  | hz :: rest, i, cur =>
    if 0 < hz then
      match cur with
      | none =>
        segGo tpf minNote phons forced rest (i + 1) (some (hz_to_midi_note hz, (i : ℚ) * tpf))
      | some (p, st) =>
        if 1/2 < |((hz_to_midi_note hz : ℚ)) - (p : ℚ)| ∨
            forceCutV phons forced tpf ((i : ℚ) * tpf) then
          (if minNote ≤ (i : ℚ) * tpf - st ∨ forceCutV phons forced tpf ((i : ℚ) * tpf) then
            [⟨p, 80, st, (i : ℚ) * tpf⟩]
          else []) ++
            segGo tpf minNote phons forced rest (i + 1)
              (some (hz_to_midi_note hz, (i : ℚ) * tpf))
        else
          segGo tpf minNote phons forced rest (i + 1) (some (p, st))
    else
      match cur with
      | none => segGo tpf minNote phons forced rest (i + 1) none
      | some (p, st) =>
        (if minNote ≤ (i : ℚ) * tpf - st ∨ forceCutU phons forced ((i : ℚ) * tpf) then
          [⟨p, 80, st, (i : ℚ) * tpf⟩]
        else []) ++
          segGo tpf minNote phons forced rest (i + 1) none

/-- Embedding of `MIDIConverter.create_midi_from_pitch`: bridge short
unvoiced gaps, run the frame loop from index 0 with no open note, then call
`_merge_short_splits(notes, gap_thresh=-1.0)` exactly as the source does. -/
noncomputable def create_midi_from_pitch (frames : List ℚ) (tpf minNote : ℚ)
    (maxGapFrames : ℕ) (phons : List (ℚ × ℚ × String)) (forced : List String) : List MNote :=
  merge_short_splits
    (segGo tpf minNote phons forced (bridge_unvoiced_gaps maxGapFrames frames) 0 none) (-1)

/-- Lower bound on the start time of any note the segmenter loop can still emit:
the open run's start (if one is open) or the current time, whichever is
smaller.  Verification helper, not part of the source. -/
def segBound (tpf : ℚ) (i : ℕ) : Option (ℤ × ℚ) → ℚ
  | none => (i : ℚ) * tpf
  | some (_, st) => min st ((i : ℚ) * tpf)

/-! ### Micro-Gap Repairer: `repair_micro_gaps_with_phonemes` -/

/-- Sort key of `sorted(inst.notes, key=lambda n: (n.start, n.end))`:
lexicographic order on (start, end).  Notes agreeing in both key components
are ordered arbitrarily (Python's sort is stable; such ties carry no timing
information). -/
def keyLe (a b : MNote) : Prop :=
  a.start < b.start ∨ (a.start = b.start ∧ a.stop ≤ b.stop)

instance : DecidableRel keyLe := by
  unfold keyLe; infer_instance

instance : IsTotal MNote keyLe := by
  constructor
  intro a b
  unfold keyLe
  rcases lt_trichotomy a.start b.start with h | h | h
  · exact Or.inl (Or.inl h)
  · rcases le_total a.stop b.stop with h' | h'
    · exact Or.inl (Or.inr ⟨h, h'⟩)
    · exact Or.inr (Or.inr ⟨h.symm, h'⟩)
  · exact Or.inr (Or.inl h)

instance : IsTrans MNote keyLe := by
  constructor
  intro a b c hab hbc
  unfold keyLe at *
  rcases hab with h1 | ⟨h1, h1'⟩ <;> rcases hbc with h2 | ⟨h2, h2'⟩
  · exact Or.inl (h1.trans h2)
  · exact Or.inl (h2 ▸ h1)
  · exact Or.inl (h1 ▸ h2)
  · exact Or.inr ⟨h1.trans h2, h1'.trans h2'⟩

/-- Model of Python's `sorted(notes, key=lambda n: (n.start, n.end))`. -/
def sortNotes (l : List MNote) : List MNote :=
  l.insertionSort keyLe

/-- Thresholds of `repair_micro_gaps_with_phonemes` (keyword arguments). -/
structure RepairCfg where
  min_phoneme_dur : ℚ
  max_fill_dur : ℚ
  min_overlap_for_covered : ℚ
  max_neighbor_gap : ℚ
  insert_velocity : ℤ

/-- Default thresholds of `repair_micro_gaps_with_phonemes`:
25 ms, 250 ms, 10 ms, 140 ms, velocity 64. -/
def defaultRepairCfg : RepairCfg :=
  ⟨1/40, 1/4, 1/100, 7/50, 64⟩

/-- Embedding of the local helper `overlap(a0, a1, b0, b1)`:
`max(0.0, min(a1, b1) - max(a0, b0))`. -/
def overlapQ (a0 a1 b0 b1 : ℚ) : ℚ :=
  max 0 (min a1 b1 - max a0 b0)

/-- Coverage scan of the repairer: for phone interval `[s,e)` sum the
overlaps with the sorted notes, stopping at the first note with
`n.start >= e` and skipping notes with `n.end <= s`. -/
def covOf (s e : ℚ) : List MNote → ℚ
  | [] => 0
  | n :: rest =>
    if e ≤ n.start then 0
    else if n.stop ≤ s then covOf s e rest
    else overlapQ s e n.start n.stop + covOf s e rest

/-- Loop of the local helper `find_prev_next(t)`: walking the time-sorted
notes, `prev` becomes each note with `n.end <= t`; the scan stops at the
first note with `n.start >= t`, which becomes `next`.  A note straddling `t`
(`n.start < t < n.end`) is skipped and becomes neither neighbor. -/
def fpnGo (t : ℚ) : List MNote → Option MNote → Option MNote × Option MNote
  | [], prev => (prev, none)
  | n :: rest, prev =>
    if n.stop ≤ t then fpnGo t rest (some n)
    else if t ≤ n.start then (prev, some n)
    else fpnGo t rest prev

/-- Embedding of `find_prev_next(t)` over the sorted note snapshot. -/
def find_prev_next (notes : List MNote) (t : ℚ) : Option MNote × Option MNote :=
  fpnGo t notes none

/-- Decision of the repair loop body for one phone interval `[s,e)` against
the (unchanging) sorted note snapshot: skip long intervals, skip covered
intervals, pick the nearer neighbor as pitch donor (the preceding note wins
ties, as Python's `min` keeps the first minimum), abstain when the donor is
farther than `max_neighbor_gap`, clip to `[max(s, prev.end), min(e, next.start))`,
and abstain when the clipped length is below `min_phoneme_dur`. -/
def repairStep (cfg : RepairCfg) (notes : List MNote) (s e : ℚ) : Option MNote :=
  if cfg.max_fill_dur < e - s then none
  else if cfg.min_overlap_for_covered ≤ covOf s e notes then none
  else
    let pn := find_prev_next notes ((s + e) * (1/2))
    let cands : List (ℚ × ℤ) :=
      (match pn.1 with
        | some p => [(max 0 (s - p.stop), p.pitch)]
        | none => []) ++
      (match pn.2 with
        | some q => [(max 0 (q.start - e), q.pitch)]
        | none => [])
    match cands with
    | [] => none
    | c :: cs =>
      let best := cs.foldl (fun b x => if x.1 < b.1 then x else b) c
      if cfg.max_neighbor_gap < best.1 then none
      else
        let st := match pn.1 with | some p => max s p.stop | none => s
        let en := match pn.2 with | some q => min e q.start | none => e
        if en - st < cfg.min_phoneme_dur then none
        else some ⟨best.2, cfg.insert_velocity, st, en⟩

/-- Phone filtering of the repairer: drop silence labels `"SP"`, `"AP"`, `""`
and intervals shorter than `min_phoneme_dur`. -/
def voicedPhones (cfg : RepairCfg) (phonemes : List (ℚ × ℚ × String)) :
    List (ℚ × ℚ × String) :=
  (phonemes.filter fun x => decide ¬ (x.2.2 = "SP" ∨ x.2.2 = "AP" ∨ x.2.2 = "")).filter
    fun x => decide (cfg.min_phoneme_dur ≤ x.2.1 - x.1)

/-- Notes inserted by the repair loop.  The loop appends to `inst.notes` but
reads coverage and neighbors from the sorted snapshot taken before the loop,
so each insertion decision sees only the original notes. -/
def repairInserted (cfg : RepairCfg) (notes0 : List MNote)
    (phonemes : List (ℚ × ℚ × String)) : List MNote :=
  (voicedPhones cfg phonemes).filterMap fun x =>
    repairStep cfg (sortNotes notes0) x.1 x.2.1

/-- Loop of the final merge of `repair_micro_gaps_with_phonemes`: same-pitch
notes within a 0.02 s gap are coalesced with `m.end = max(m.end, n.end)`. -/
def mergeRepairGo : MNote → List MNote → List MNote
  | m, [] => [m]
  | m, n :: rest =>
    if n.pitch = m.pitch ∧ n.start - m.stop ≤ 1/50 then
      mergeRepairGo ⟨m.pitch, m.velocity, m.start, max m.stop n.stop⟩ rest
    else
      m :: mergeRepairGo n rest

/-- Final merge of `repair_micro_gaps_with_phonemes` (runs only when at least
one note was inserted). -/
def mergeRepair : List MNote → List MNote
  | [] => []
  | n :: rest => mergeRepairGo n rest

/-- Embedding of the note-list transformation of
`repair_micro_gaps_with_phonemes`: no usable phones or no insertion leaves
the notes untouched (the function returns `False`); otherwise the inserted
notes are appended, the list re-sorted and the 0.02 s same-pitch merge run. -/
def repair_micro_gaps (cfg : RepairCfg) (notes0 : List MNote)
    (phonemes : List (ℚ × ℚ × String)) : List MNote :=
  if voicedPhones cfg phonemes = [] then notes0
  else
    let ins := repairInserted cfg notes0 phonemes
    if ins = [] then notes0
    else mergeRepair (sortNotes (notes0 ++ ins))

/-! ### Helper lemmas for the Merger -/

/-- Head of `mergeGo` keeps the pitch, start and velocity of the carried note. -/
theorem mergeGo_head (gap : ℚ) :
    ∀ (l : List MNote) (p : MNote), ∃ q t, mergeGo gap p l = q :: t ∧
      q.pitch = p.pitch ∧ q.start = p.start ∧ q.velocity = p.velocity := by
  intro l
  induction l with
  | nil => intro p; exact ⟨p, [], rfl, rfl, rfl, rfl⟩
  | cons n rest ih =>
    intro p
    by_cases h : mergeCond gap p n
    · obtain ⟨q, t, hq, h1, h2, h3⟩ := ih ⟨p.pitch, p.velocity, p.start, n.stop⟩
      exact ⟨q, t, by simpa [mergeGo, h] using hq, h1, h2, h3⟩
    · exact ⟨p, mergeGo gap n rest, by simp [mergeGo, h], rfl, rfl, rfl⟩

/-- Consecutive notes of a merge result never satisfy the merge condition. -/
theorem mergeGo_chain (gap : ℚ) :
    ∀ (l : List MNote) (p : MNote),
      List.Chain' (fun a b => ¬ mergeCond gap a b) (mergeGo gap p l) := by
  intro l
  induction l with
  | nil => intro p; simp [mergeGo]
  | cons n rest ih =>
    intro p
    by_cases h : mergeCond gap p n
    · simpa [mergeGo, h] using ih ⟨p.pitch, p.velocity, p.start, n.stop⟩
    · rw [mergeGo, if_neg h]
      obtain ⟨q, t, hq, h1, h2, _⟩ := mergeGo_head gap rest n
      rw [hq]
      refine List.Chain'.cons ?_ (hq ▸ ih n)
      intro hc
      exact h ⟨h1 ▸ hc.1, h2 ▸ hc.2⟩

/-- A list whose consecutive pairs all fail the merge condition is a fixed
point of `mergeGo`. -/
theorem mergeGo_fixed (gap : ℚ) :
    ∀ (l : List MNote) (p : MNote),
      List.Chain' (fun a b => ¬ mergeCond gap a b) (p :: l) →
      mergeGo gap p l = p :: l := by
  intro l
  induction l with
  | nil => intro p _; rfl
  | cons n rest ih =>
    intro p hc
    rcases List.chain'_cons.mp hc with ⟨hpn, hrest⟩
    rw [mergeGo, if_neg hpn, ih n hrest]

/-- Fixed-point form of `merge_short_splits` on merge-free lists. -/
theorem merge_short_splits_fixed (gap : ℚ) (l : List MNote)
    (hc : List.Chain' (fun a b => ¬ mergeCond gap a b) l) :
    merge_short_splits l gap = l := by
  cases l with
  | nil => rfl
  | cons n rest => exact mergeGo_fixed gap rest n hc

/-- Claim C5: The Merger is idempotent: for every NoteSequence `S`,
`merge(merge(S)) == merge(S)` (in particular for `S` sorted by start time,
as the claim states). -/
theorem merger_idempotent (S : List MNote) (gap : ℚ) :
    merge_short_splits (merge_short_splits S gap) gap = merge_short_splits S gap := by
  cases S with
  | nil => rfl
  | cons n rest =>
    exact merge_short_splits_fixed gap (mergeGo gap n rest) (mergeGo_chain gap rest n)

/-- Claim C8: The Calibrator returns `D / N` exactly when that estimate lies in
the 15–30 ms hop range, the nominal duration otherwise, and silently returns
the nominal duration when probing the audio duration failed. -/
theorem calibrator_spec (d default_tpf : ℚ) (numFrames : ℕ) (h : 1 ≤ numFrames) :
    ((15/1000 ≤ d / (numFrames : ℚ) ∧ d / (numFrames : ℚ) ≤ 30/1000) →
      infer_time_per_frame (some d) numFrames default_tpf = d / (numFrames : ℚ)) ∧
    (¬ (15/1000 ≤ d / (numFrames : ℚ) ∧ d / (numFrames : ℚ) ≤ 30/1000) →
      infer_time_per_frame (some d) numFrames default_tpf = default_tpf) ∧
    infer_time_per_frame none numFrames default_tpf = default_tpf := by
  have hmax : max 1 numFrames = numFrames := max_eq_right h
  refine ⟨fun hin => ?_, fun hout => ?_, rfl⟩
  · simp only [infer_time_per_frame, hmax]
    rw [if_pos hin]
  · simp only [infer_time_per_frame, hmax]
    rw [if_neg hout]

/-- Witness for `calibrator_spec` at `D = 1/50`, `N = 2`, nominal `1/10`:
the estimate `1/100` is below 15 ms, so the nominal value is kept. -/
theorem calibrator_spec_witness :
    infer_time_per_frame (some (1/50)) 2 (1/10) = 1/10 := by
  have h := calibrator_spec (1/50) (1/10) 2 (by norm_num)
  exact h.2.1 (by norm_num)

/-! ### Helper lemmas for the Gap Bridger -/

/-- A list of non-positive values is pointwise related to any constant list of
the same length by "voiced frames are preserved" (vacuously). -/
theorem forall₂_replicate_of_nonpos :
    ∀ (l : List ℚ) (c : ℚ), (∀ y ∈ l, ¬ 0 < y) →
      List.Forall₂ (fun a b => 0 < a → b = a) l (List.replicate l.length c) := by
  intro l c
  induction l with
  | nil => intro _; exact List.Forall₂.nil
  | cons x rest ih =>
    intro h
    refine List.Forall₂.cons (fun hx => absurd hx (h x (by simp))) ?_
    exact ih fun y hy => h y (by simp [hy])

/-- Invariant of the bridger loop: each frame of the input (pending run plus
remaining frames) maps to the output frame at the same position, and frames
with a positive value are kept unchanged. -/
theorem bridgeGo_forall₂ (g : ℕ) :
    ∀ (rest : List ℚ) (left : ℚ) (pending : List ℚ),
      (∀ y ∈ pending, ¬ 0 < y) →
      List.Forall₂ (fun a b => 0 < a → b = a) (pending ++ rest)
        (bridgeGo g left pending rest) := by
  intro rest
  induction rest with
  | nil =>
    intro left pending hp
    rw [bridgeGo, List.append_nil]
    exact List.forall₂_same.mpr fun y _ => fun _ => rfl
  | cons x rest ih =>
    intro left pending hp
    by_cases hx : 0 < x
    · rw [bridgeGo, if_pos hx]
      refine List.rel_append ?_ (List.Forall₂.cons (fun _ => rfl) (ih x [] (by simp)))
      by_cases hlen : 0 < pending.length ∧ pending.length ≤ g
      · rw [if_pos hlen]; exact forall₂_replicate_of_nonpos pending _ hp
      · rw [if_neg hlen]; exact List.forall₂_same.mpr fun y _ => fun _ => rfl
    · rw [bridgeGo, if_neg hx]
      have hp' : ∀ y ∈ pending ++ [x], ¬ 0 < y := by
        intro y hy
        rcases List.mem_append.mp hy with h | h
        · exact hp y h
        · simpa [List.mem_singleton.mp h] using hx
      have := ih left (pending ++ [x]) hp'
      simpa [List.append_assoc] using this

/-- Claim C10: For every FrameTrack and every `maxGapFrames`, the Gap Bridger
returns a track of identical length in which every voiced frame (`f > 0`)
keeps its exact input value; only unvoiced frames may be rewritten. -/
theorem bridger_preserves_voiced (g : ℕ) (f0 : List ℚ) :
    (bridge_unvoiced_gaps g f0).length = f0.length ∧
    List.Forall₂ (fun a b => 0 < a → b = a) f0 (bridge_unvoiced_gaps g f0) := by
  have h := bridgeGo_forall₂ g f0 0 [] (by simp)
  rw [List.nil_append] at h
  exact ⟨h.length_eq.symm, h⟩

/-! ### Helper lemmas for the Coverage Analyzer -/

/-- The code's filtered overlap sum equals the specification's clamped
overlap sum over all notes, provided notes have positive length. -/
theorem overlap_sum_eq (s e : ℚ) (hse : s < e) :
    ∀ (notes : List MNote), (∀ n ∈ notes, n.start < n.stop) →
      ((find_overlapping_notes notes s e).map Prod.fst).sum =
      (notes.map fun n => max 0 (min n.stop e - max n.start s)).sum := by
  intro notes
  induction notes with
  | nil => intro _; rfl
  | cons n rest ih =>
    intro h
    have hrest := ih fun m hm => h m (List.mem_cons_of_mem n hm)
    have hn : n.start < n.stop := h n (List.mem_cons_self n rest)
    by_cases hcond : n.start < e ∧ s < n.stop
    · have hlt : max n.start s < min n.stop e :=
        lt_min_iff.mpr ⟨max_lt_iff.mpr ⟨hn, hcond.2⟩, max_lt_iff.mpr ⟨hcond.1, hse⟩⟩
      have hmax : max 0 (min n.stop e - max n.start s) = min n.stop e - max n.start s :=
        max_eq_right (by linarith)
      simp only [find_overlapping_notes, List.filterMap_cons, if_pos hcond,
        List.map_cons, List.sum_cons, List.map, hmax]
      rw [← hrest]; rfl
    · have hle : min n.stop e - max n.start s ≤ 0 := by
        rcases not_and_or.mp hcond with hc | hc
        · have h1 : e ≤ n.start := not_lt.mp hc
          have h2 : min n.stop e ≤ e := min_le_right _ _
          have h3 : n.start ≤ max n.start s := le_max_left _ _
          linarith
        · have h1 : n.stop ≤ s := not_lt.mp hc
          have h2 : min n.stop e ≤ n.stop := min_le_left _ _
          have h3 : s ≤ max n.start s := le_max_right _ _
          linarith
      have hmax : max 0 (min n.stop e - max n.start s) = 0 := max_eq_left hle
      simp only [find_overlapping_notes, List.filterMap_cons, if_neg hcond,
        List.map_cons, List.sum_cons, hmax]
      rw [← hrest, zero_add]; rfl

/-- The specification's coverage value is nonnegative. -/
theorem coverageSpec_nonneg (s e : ℚ) (notes : List MNote) (hse : s < e) :
    0 ≤ coverageSpec s e notes := by
  unfold coverageSpec
  refine le_min ?_ (by norm_num)
  refine div_nonneg ?_ (by linarith)
  refine List.sum_nonneg ?_
  intro x hx
  rcases List.mem_map.mp hx with ⟨n, _, rfl⟩
  exact le_max_left _ _

/-- Claim C9: For every lexical interval `[s,e)` with `s < e` and every
NoteSequence with positive-length notes, the analyzer's coverage value equals
`min(Σ max(0, min(note.end,e) - max(note.start,s)) / (e-s), 1)` and lies in
`[0, 1]`. -/
theorem coverage_correct (s e : ℚ) (notes : List MNote) (hse : s < e)
    (hn : ∀ n ∈ notes, n.start < n.stop) :
    calculate_coverage s e (find_overlapping_notes notes s e) = coverageSpec s e notes ∧
    0 ≤ calculate_coverage s e (find_overlapping_notes notes s e) ∧
    calculate_coverage s e (find_overlapping_notes notes s e) ≤ 1 := by
  have hsum := overlap_sum_eq s e hse notes hn
  have heq : calculate_coverage s e (find_overlapping_notes notes s e) =
      coverageSpec s e notes := by
    unfold calculate_coverage coverageSpec
    by_cases hov : find_overlapping_notes notes s e = []
    · rw [if_pos hov]
      rw [hov] at hsum
      simp only [List.map_nil, List.sum_nil] at hsum
      rw [← hsum, zero_div]
      norm_num
    · rw [if_neg hov, hsum]
  refine ⟨heq, ?_, ?_⟩
  · rw [heq]; exact coverageSpec_nonneg s e notes hse
  · rw [heq]; exact min_le_right _ _

/-- Witness for `coverage_correct`: the interval `[0,1)` and a single note
`[0, 1/2)` give coverage `1/2`, within `[0,1]`. -/
theorem coverage_correct_witness :
    calculate_coverage 0 1 (find_overlapping_notes [⟨60, 80, 0, 1/2⟩] 0 1) =
      coverageSpec 0 1 [⟨60, 80, 0, 1/2⟩] ∧
    0 ≤ calculate_coverage 0 1 (find_overlapping_notes [⟨60, 80, 0, 1/2⟩] 0 1) ∧
    calculate_coverage 0 1 (find_overlapping_notes [⟨60, 80, 0, 1/2⟩] 0 1) ≤ 1 := by
  refine coverage_correct 0 1 [⟨60, 80, 0, 1/2⟩] (by norm_num) ?_
  intro n hn
  rw [List.mem_singleton.mp hn]
  norm_num

/-! ### Helper lemmas for the Segmenter -/

/-- The conversion maps 220 Hz to pitch 57 (A3) exactly:
`log2(220/440) = -1`, so `int(69 - 12) = 57`. -/
theorem hz_to_midi_note_220 : hz_to_midi_note 220 = 57 := by
  unfold hz_to_midi_note pyTrunc
  rw [if_neg (by norm_num)]
  have h1 : ((220 : ℚ) : ℝ) / 440 = 2⁻¹ := by norm_num
  rw [h1, Real.logb_inv, Real.logb_self_eq_one (by norm_num)]
  norm_num

/-- One-step unfolding: a voiced frame with no open run opens a run at the
converted pitch and the current time. -/
theorem segGo_cons_voiced_none (tpf minNote : ℚ) (phons : List (ℚ × ℚ × String))
    (forced : List String) (hz : ℚ) (rest : List ℚ) (i : ℕ) (hhz : 0 < hz) :
    segGo tpf minNote phons forced (hz :: rest) i none =
      segGo tpf minNote phons forced rest (i + 1)
        (some (hz_to_midi_note hz, (i : ℚ) * tpf)) := by
  simp only [segGo]
  rw [if_pos hhz]

/-- One-step unfolding: a voiced frame with an open run either continues it or
closes it (emitting subject to the duration gate or a forced cut) and reopens. -/
theorem segGo_cons_voiced_some (tpf minNote : ℚ) (phons : List (ℚ × ℚ × String))
    (forced : List String) (hz : ℚ) (rest : List ℚ) (i : ℕ) (p : ℤ) (st : ℚ)
    (hhz : 0 < hz) :
    segGo tpf minNote phons forced (hz :: rest) i (some (p, st)) =
      if 1/2 < |((hz_to_midi_note hz : ℚ)) - (p : ℚ)| ∨
          forceCutV phons forced tpf ((i : ℚ) * tpf) then
        (if minNote ≤ (i : ℚ) * tpf - st ∨ forceCutV phons forced tpf ((i : ℚ) * tpf) then
          [⟨p, 80, st, (i : ℚ) * tpf⟩]
        else []) ++
          segGo tpf minNote phons forced rest (i + 1)
            (some (hz_to_midi_note hz, (i : ℚ) * tpf))
      else
        segGo tpf minNote phons forced rest (i + 1) (some (p, st)) := by
  simp only [segGo]
  rw [if_pos hhz]

/-- One-step unfolding: an unvoiced frame with no open run is skipped. -/
theorem segGo_cons_unvoiced_none (tpf minNote : ℚ) (phons : List (ℚ × ℚ × String))
    (forced : List String) (hz : ℚ) (rest : List ℚ) (i : ℕ) (hhz : ¬ 0 < hz) :
    segGo tpf minNote phons forced (hz :: rest) i none =
      segGo tpf minNote phons forced rest (i + 1) none := by
  simp only [segGo]
  rw [if_neg hhz]

/-- One-step unfolding: an unvoiced frame closes an open run, emitting the
note when the duration gate or the unvoiced forced-cut test passes. -/
theorem segGo_cons_unvoiced_some (tpf minNote : ℚ) (phons : List (ℚ × ℚ × String))
    (forced : List String) (hz : ℚ) (rest : List ℚ) (i : ℕ) (p : ℤ) (st : ℚ)
    (hhz : ¬ 0 < hz) :
    segGo tpf minNote phons forced (hz :: rest) i (some (p, st)) =
      (if minNote ≤ (i : ℚ) * tpf - st ∨ forceCutU phons forced ((i : ℚ) * tpf) then
        [⟨p, 80, st, (i : ℚ) * tpf⟩]
      else []) ++
        segGo tpf minNote phons forced rest (i + 1) none := by
  simp only [segGo]
  rw [if_neg hhz]

/-- Invariant of the segmenter loop: every emitted note starts at or after
`segBound`, and consecutive emitted notes do not overlap
(`a.stop ≤ b.start`). -/
theorem segGo_chain (tpf minNote : ℚ) (phons : List (ℚ × ℚ × String))
    (forced : List String) (htpf : 0 ≤ tpf) :
    ∀ (l : List ℚ) (i : ℕ) (cur : Option (ℤ × ℚ)),
      (∀ n ∈ segGo tpf minNote phons forced l i cur, segBound tpf i cur ≤ n.start) ∧
      List.Chain' (fun a b => a.stop ≤ b.start) (segGo tpf minNote phons forced l i cur) := by
  intro l
  induction l with
  | nil =>
    intro i cur
    match cur with
    | none => exact ⟨by intro n hn; simp [segGo] at hn, by simp [segGo]⟩
    | some (p, st) =>
      constructor
      · intro n hn
        rw [segGo] at hn
        split at hn
        · rw [List.mem_singleton.mp hn]
          exact min_le_left _ _
        · simp at hn
      · rw [segGo]
        split
        · exact List.chain'_singleton _
        · exact List.chain'_nil
  | cons hz rest ih =>
    intro i cur
    have hstep : (i : ℚ) * tpf ≤ ((i + 1 : ℕ) : ℚ) * tpf := by
      push_cast
      nlinarith
    by_cases hhz : 0 < hz
    · match cur with
      | none =>
        rw [segGo, if_pos hhz]
        obtain ⟨hmem, hch⟩ := ih (i + 1) (some (hz_to_midi_note hz, (i : ℚ) * tpf))
        refine ⟨fun n hn => ?_, hch⟩
        have := hmem n hn
        simp only [segBound] at this ⊢
        have hmin : min ((i : ℚ) * tpf) (((i + 1 : ℕ) : ℚ) * tpf) = (i : ℚ) * tpf :=
          min_eq_left hstep
        rw [hmin] at this
        exact this
      | some (p, st) =>
        rw [segGo, if_pos hhz]
        by_cases hclose : 1/2 < |((hz_to_midi_note hz : ℚ)) - (p : ℚ)| ∨
            forceCutV phons forced tpf ((i : ℚ) * tpf)
        · rw [if_pos hclose]
          obtain ⟨hmem, hch⟩ := ih (i + 1) (some (hz_to_midi_note hz, (i : ℚ) * tpf))
          have hrecstart : ∀ n ∈ segGo tpf minNote phons forced rest (i + 1)
              (some (hz_to_midi_note hz, (i : ℚ) * tpf)), (i : ℚ) * tpf ≤ n.start := by
            intro n hn
            have := hmem n hn
            simp only [segBound] at this
            have hmin : min ((i : ℚ) * tpf) (((i + 1 : ℕ) : ℚ) * tpf) = (i : ℚ) * tpf :=
              min_eq_left hstep
            rw [hmin] at this
            exact this
          constructor
          · intro n hn
            rcases List.mem_append.mp hn with h | h
            · split at h
              · rw [List.mem_singleton.mp h]
                exact min_le_left _ _
              · simp at h
            · exact le_trans (min_le_right _ _) (hrecstart n h)
          · split
            · refine List.Chain'.cons' hch ?_
              intro y hy
              exact hrecstart y (List.mem_of_mem_head? hy)
            · rw [List.nil_append]
              exact hch
        · rw [if_neg hclose]
          obtain ⟨hmem, hch⟩ := ih (i + 1) (some (p, st))
          refine ⟨fun n hn => ?_, hch⟩
          have := hmem n hn
          simp only [segBound] at this ⊢
          exact le_trans (min_le_min_left st hstep) this
    · match cur with
      | none =>
        rw [segGo, if_neg hhz]
        obtain ⟨hmem, hch⟩ := ih (i + 1) none
        refine ⟨fun n hn => ?_, hch⟩
        have := hmem n hn
        simp only [segBound] at this ⊢
        exact le_trans hstep this
      | some (p, st) =>
        rw [segGo, if_neg hhz]
        obtain ⟨hmem, hch⟩ := ih (i + 1) none
        have hrecstart : ∀ n ∈ segGo tpf minNote phons forced rest (i + 1) none,
            (i : ℚ) * tpf ≤ n.start := by
          intro n hn
          have := hmem n hn
          simp only [segBound] at this
          exact le_trans hstep this
        constructor
        · intro n hn
          rcases List.mem_append.mp hn with h | h
          · split at h
            · rw [List.mem_singleton.mp h]
              exact min_le_left _ _
            · simp at h
          · exact le_trans (min_le_right _ _) (hrecstart n h)
        · split
          · refine List.Chain'.cons' hch ?_
            intro y hy
            exact hrecstart y (List.mem_of_mem_head? hy)
          · rw [List.nil_append]
            exact hch

/-- Claim C6: The primary pass invokes the merge step with gap threshold
`-1.0` (`gap_thresh=-1.0` at the call site); since the Segmenter emits
time-ordered notes with non-negative gaps, this call changes nothing and the
primary-pass output equals the raw Segmenter output. -/
theorem primary_pass_merge_is_identity (frames : List ℚ) (tpf minNote : ℚ)
    (g : ℕ) (phons : List (ℚ × ℚ × String)) (forced : List String) (htpf : 0 ≤ tpf) :
    create_midi_from_pitch frames tpf minNote g phons forced =
      segGo tpf minNote phons forced (bridge_unvoiced_gaps g frames) 0 none := by
  unfold create_midi_from_pitch
  refine merge_short_splits_fixed _ _ ?_
  have h := (segGo_chain tpf minNote phons forced htpf
    (bridge_unvoiced_gaps g frames) 0 none).2
  refine h.imp ?_
  intro a b hab hc
  rcases hc with ⟨_, hle⟩
  linarith

/-- Witness for `primary_pass_merge_is_identity` on the one-frame track
`[220]` with `tpf = 1/50`. -/
theorem primary_pass_merge_is_identity_witness :
    create_midi_from_pitch [220] (1/50) (1/100) 0 [] [] =
      segGo (1/50) (1/100) [] [] (bridge_unvoiced_gaps 0 [220]) 0 none :=
  primary_pass_merge_is_identity [220] (1/50) (1/100) 0 [] [] (by norm_num)

/-- Helper: on a constant 220 Hz run with no forced labels, the open pitch-57
run continues to the end of the block and closes under the duration gate. -/
theorem segGo_const220 (tpf minNote : ℚ) :
    ∀ (k i : ℕ) (st : ℚ),
      segGo tpf minNote [] [] (List.replicate k (220 : ℚ)) i (some (57, st)) =
        if minNote ≤ ((i + k : ℕ) : ℚ) * tpf - st then
          [⟨57, 80, st, ((i + k : ℕ) : ℚ) * tpf⟩]
        else [] := by
  intro k
  induction k with
  | zero =>
    intro i st
    simp [segGo]
  | succ k ih =>
    intro i st
    have h220 : (0 : ℚ) < 220 := by norm_num
    have hnc : ¬ (1/2 < |((hz_to_midi_note 220 : ℚ)) - ((57 : ℤ) : ℚ)| ∨
        forceCutV [] [] tpf ((i : ℚ) * tpf)) := by
      rw [hz_to_midi_note_220]
      simp [forceCutV]
    rw [List.replicate_succ]
    simp only [segGo]
    rw [if_pos h220, if_neg hnc, ih (i + 1) st]
    have harith : i + 1 + k = i + (k + 1) := by omega
    rw [harith]

/-- Claim C4: For the track `[220Hz]*10 ++ [0]*2 ++ [220Hz]*10` with frame
duration 0.02 s and bridge gap limit 2 frames, the Gap Bridger fills the
2-frame gap and the Segmenter emits exactly one note `[0, 0.44)` at pitch 57,
not two notes (for any duration gate at most 0.44 s). -/
theorem bridged_track_single_note (minNote : ℚ) (h : minNote ≤ 11/25) :
    create_midi_from_pitch
      (List.replicate 10 (220 : ℚ) ++ List.replicate 2 0 ++ List.replicate 10 220)
      (1/50) minNote 2 [] [] = [⟨57, 80, 0, 11/25⟩] := by
  have hb : bridge_unvoiced_gaps 2
      (List.replicate 10 (220 : ℚ) ++ List.replicate 2 0 ++ List.replicate 10 220) =
      List.replicate 22 (220 : ℚ) := by
    simp only [bridge_unvoiced_gaps, List.replicate_succ, List.replicate_zero,
      List.cons_append, List.nil_append, bridgeGo]
    norm_num [max_def]
    simp [List.replicate_succ]
  unfold create_midi_from_pitch
  rw [hb]
  rw [show List.replicate 22 (220 : ℚ) = 220 :: List.replicate 21 220 from rfl]
  rw [segGo_cons_voiced_none (1/50) minNote [] [] 220 (List.replicate 21 220) 0
    (by norm_num)]
  rw [hz_to_midi_note_220]
  rw [segGo_const220 (1/50) minNote 21 (0 + 1) (((0 : ℕ) : ℚ) * (1/50))]
  rw [if_pos (show minNote ≤ ((0 + 1 + 21 : ℕ) : ℚ) * (1/50) - ((0 : ℕ) : ℚ) * (1/50) from by
    push_cast
    linarith)]
  have h1 : ((0 : ℕ) : ℚ) * (1/50) = 0 := by norm_num
  have h2 : ((0 + 1 + 21 : ℕ) : ℚ) * (1/50) = 11/25 := by norm_num
  rw [h1, h2]
  rfl

/-- Witness for `bridged_track_single_note` at the default pipeline duration
gate `min_note_duration = 0.015`. -/
theorem bridged_track_single_note_witness :
    create_midi_from_pitch
      (List.replicate 10 (220 : ℚ) ++ List.replicate 2 0 ++ List.replicate 10 220)
      (1/50) (3/200) 2 [] [] = [⟨57, 80, 0, 11/25⟩] :=
  bridged_track_single_note (3/200) (by norm_num)

/-- Helper evaluation shared by the C2 theorems: with `min_note_duration = 1`,
forced label set `["a"]` and a phoneme `(100, 101, "a")`, the two-frame track
`[220, 0]` emits the 0.01 s note `[0, 0.01)` at pitch 57 when the unvoiced
frame closes the run, because the unvoiced-close branch also honours the
forced-cut test (`ps >= current_time and ph in force_split_phonemes`). -/
theorem segGo_c2_eval :
    segGo (1/100) 1 [((100 : ℚ), (101 : ℚ), "a")] ["a"] [220, 0] 0 none =
      [⟨57, 80, 0, 1/100⟩] := by
  rw [segGo_cons_voiced_none (1/100) 1 [((100 : ℚ), (101 : ℚ), "a")] ["a"] 220 [0] 0
    (by norm_num)]
  rw [hz_to_midi_note_220]
  rw [segGo_cons_unvoiced_some (1/100) 1 [((100 : ℚ), (101 : ℚ), "a")] ["a"] 0 [] (0 + 1)
    57 (((0 : ℕ) : ℚ) * (1/100)) (by norm_num)]
  have hgate : (1 : ℚ) ≤ (((0 + 1 : ℕ) : ℚ)) * (1/100) - ((0 : ℕ) : ℚ) * (1/100) ∨
      forceCutU [((100 : ℚ), (101 : ℚ), "a")] ["a"] (((0 + 1 : ℕ) : ℚ) * (1/100)) := by
    right
    refine ⟨by simp, ⟨(100, 101, "a"), by simp, ?_, by simp⟩⟩
    push_cast
    norm_num
  rw [if_pos hgate]
  simp [segGo]

/-- Claim C2 counterexample: With forced-cut labels configured, a run of voiced
frames closed by an unvoiced frame is emitted even though its duration
(0.01 s) is far below `min_note_duration` (1 s): the duration gate is
overridden by the forced-cut test, contradicting the claim that no forced-cut
override applies on unvoiced closes. -/
theorem unvoiced_close_gate_overridden :
    segGo (1/100) 1 [((100 : ℚ), (101 : ℚ), "a")] ["a"] [220, 0] 0 none =
      [⟨57, 80, 0, 1/100⟩] ∧ (1/100 : ℚ) - 0 < 1 :=
  ⟨segGo_c2_eval, by norm_num⟩

/-- Claim C2 amended: Every note the Segmenter emits either passes the
duration gate, or was closed by a forced cut: some phoneme with a forced
label starts within one frame of the note's end (voiced close) or at/after
the note's end (unvoiced close). -/
theorem close_gate_or_forced_cut (tpf minNote : ℚ) (phons : List (ℚ × ℚ × String))
    (forced : List String) :
    ∀ (l : List ℚ) (i : ℕ) (cur : Option (ℤ × ℚ)) (n : MNote),
      n ∈ segGo tpf minNote phons forced l i cur →
      minNote ≤ n.stop - n.start ∨
        ∃ x ∈ phons, x.2.2 ∈ forced ∧ (|x.1 - n.stop| ≤ tpf ∨ n.stop ≤ x.1) := by
  intro l
  induction l with
  | nil =>
    intro i cur n hn
    match cur with
    | none => simp [segGo] at hn
    | some (p, st) =>
      rw [segGo] at hn
      split at hn
      · rw [List.mem_singleton.mp hn]
        left
        simpa using by assumption
      · simp at hn
  | cons hz rest ih =>
    intro i cur n hn
    by_cases hhz : 0 < hz
    · match cur with
      | none =>
        rw [segGo_cons_voiced_none tpf minNote phons forced hz rest i hhz] at hn
        exact ih (i + 1) _ n hn
      | some (p, st) =>
        rw [segGo_cons_voiced_some tpf minNote phons forced hz rest i p st hhz] at hn
        split at hn
        · rcases List.mem_append.mp hn with h | h
          · split at h
            · rw [List.mem_singleton.mp h]
              rename_i hgate
              rcases hgate with hdur | hfc
              · left
                simpa using hdur
              · rcases hfc with ⟨_, x, hx, habs, hmem⟩
                exact Or.inr ⟨x, hx, hmem, Or.inl (by simpa using habs)⟩
            · simp at h
          · exact ih (i + 1) _ n h
        · exact ih (i + 1) _ n hn
    · match cur with
      | none =>
        rw [segGo_cons_unvoiced_none tpf minNote phons forced hz rest i hhz] at hn
        exact ih (i + 1) _ n hn
      | some (p, st) =>
        rw [segGo_cons_unvoiced_some tpf minNote phons forced hz rest i p st hhz] at hn
        rcases List.mem_append.mp hn with h | h
        · split at h
          · rw [List.mem_singleton.mp h]
            rename_i hgate
            rcases hgate with hdur | hfc
            · left
              simpa using hdur
            · rcases hfc with ⟨_, x, hx, hle, hmem⟩
              exact Or.inr ⟨x, hx, hmem, Or.inr (by simpa using hle)⟩
          · simp at h
        · exact ih (i + 1) _ n h

/-- Witness for `close_gate_or_forced_cut` at the note emitted in
`segGo_c2_eval`: the forced-cut disjunct holds there. -/
theorem close_gate_or_forced_cut_witness :
    (1 : ℚ) ≤ (1/100 : ℚ) - 0 ∨
      ∃ x ∈ [((100 : ℚ), (101 : ℚ), "a")], x.2.2 ∈ ["a"] ∧
        (|x.1 - (1/100 : ℚ)| ≤ 1/100 ∨ (1/100 : ℚ) ≤ x.1) := by
  have h := close_gate_or_forced_cut (1/100) 1 [((100 : ℚ), (101 : ℚ), "a")] ["a"]
    [220, 0] 0 none ⟨57, 80, 0, 1/100⟩ (by rw [segGo_c2_eval]; simp)
  simpa using h

/-- Helper evaluation shared by the C7 theorems: the track `[220, -5, 220]`
with the negative middle frame. -/
theorem segGo_c7_eval_neg :
    segGo (1/50) (1/100) [] [] [220, -5, 220] 0 none =
      [⟨57, 80, 0, 1/50⟩, ⟨57, 80, 1/25, 3/50⟩] := by
  rw [segGo_cons_voiced_none (1/50) (1/100) [] [] 220 [-5, 220] 0 (by norm_num)]
  rw [hz_to_midi_note_220]
  rw [segGo_cons_unvoiced_some (1/50) (1/100) [] [] (-5) [220] (0 + 1) 57
    (((0 : ℕ) : ℚ) * (1/50)) (by norm_num)]
  rw [if_pos (Or.inl (by push_cast; norm_num))]
  rw [segGo_cons_voiced_none (1/50) (1/100) [] [] 220 [] (0 + 1 + 1) (by norm_num)]
  rw [hz_to_midi_note_220]
  simp [segGo]
  norm_num

/-- Helper evaluation shared by the C7 theorems: the track `[220, 0, 220]`
with an ordinary unvoiced middle frame. -/
theorem segGo_c7_eval_zero :
    segGo (1/50) (1/100) [] [] [220, 0, 220] 0 none =
      [⟨57, 80, 0, 1/50⟩, ⟨57, 80, 1/25, 3/50⟩] := by
  rw [segGo_cons_voiced_none (1/50) (1/100) [] [] 220 [0, 220] 0 (by norm_num)]
  rw [hz_to_midi_note_220]
  rw [segGo_cons_unvoiced_some (1/50) (1/100) [] [] 0 [220] (0 + 1) 57
    (((0 : ℕ) : ℚ) * (1/50)) (by norm_num)]
  rw [if_pos (Or.inl (by push_cast; norm_num))]
  rw [segGo_cons_voiced_none (1/50) (1/100) [] [] 220 [] (0 + 1 + 1) (by norm_num)]
  rw [hz_to_midi_note_220]
  simp [segGo]
  norm_num

/-- Claim C7 counterexample: A track containing the negative frame value `-5`
is not rejected: the Segmenter silently treats it exactly like an unvoiced
(`0`) frame and returns a normal note list. -/
theorem negative_frame_silently_coerced :
    segGo (1/50) (1/100) [] [] [220, -5, 220] 0 none =
      segGo (1/50) (1/100) [] [] [220, 0, 220] 0 none ∧
    segGo (1/50) (1/100) [] [] [220, -5, 220] 0 none =
      [⟨57, 80, 0, 1/50⟩, ⟨57, 80, 1/25, 3/50⟩] :=
  ⟨segGo_c7_eval_neg.trans segGo_c7_eval_zero.symm, segGo_c7_eval_neg⟩

/-- Claim C7 amended: The Segmenter treats every non-positive frame value as
unvoiced: replacing all non-positive frames by `0` never changes its output
(no validation failure is raised; the guard `pitch_hz > 0` is the only test). -/
theorem nonpositive_frames_treated_as_unvoiced (tpf minNote : ℚ)
    (phons : List (ℚ × ℚ × String)) (forced : List String) :
    ∀ (l : List ℚ) (i : ℕ) (cur : Option (ℤ × ℚ)),
      segGo tpf minNote phons forced (l.map fun x => if 0 < x then x else 0) i cur =
        segGo tpf minNote phons forced l i cur := by
  intro l
  induction l with
  | nil => intro i cur; rfl
  | cons x rest ih =>
    intro i cur
    rw [List.map_cons]
    by_cases hx : 0 < x
    · rw [if_pos hx]
      match cur with
      | none =>
        rw [segGo_cons_voiced_none tpf minNote phons forced x _ i hx,
          segGo_cons_voiced_none tpf minNote phons forced x rest i hx]
        exact ih (i + 1) _
      | some (p, st) =>
        rw [segGo_cons_voiced_some tpf minNote phons forced x _ i p st hx,
          segGo_cons_voiced_some tpf minNote phons forced x rest i p st hx]
        simp only [ih]
    · rw [if_neg hx]
      have h0 : ¬ (0 : ℚ) < 0 := lt_irrefl 0
      match cur with
      | none =>
        rw [segGo_cons_unvoiced_none tpf minNote phons forced 0 _ i h0,
          segGo_cons_unvoiced_none tpf minNote phons forced x rest i hx]
        exact ih (i + 1) _
      | some (p, st) =>
        rw [segGo_cons_unvoiced_some tpf minNote phons forced 0 _ i p st h0,
          segGo_cons_unvoiced_some tpf minNote phons forced x rest i p st hx]
        rw [ih (i + 1) none]

/-! ### Helper lemmas for the Micro-Gap Repairer -/

/-- Helper evaluation shared by the C3 theorems: with the default thresholds,
the phone interval `[1, 1.1)` between a preceding note ending at `1` and a
tiny note `[1.049, 1.051)` that straddles the interval midpoint `1.05`
(coverage `0.002 < 0.01`) yields the insertion `[1, 1.1)` at the preceding
note's pitch 62: the straddling note is neither `prev` nor `next`, so the
clipping step never sees it. -/
theorem repairInserted_c3_eval :
    repairInserted defaultRepairCfg
      [⟨62, 80, 9/10, 1⟩, ⟨60, 80, 1049/1000, 1051/1000⟩]
      [((1 : ℚ), (11/10 : ℚ), "ta")] = [⟨62, 64, 1, 11/10⟩] := by
  have hsort : sortNotes [(⟨62, 80, 9/10, 1⟩ : MNote), ⟨60, 80, 1049/1000, 1051/1000⟩] =
      [⟨62, 80, 9/10, 1⟩, ⟨60, 80, 1049/1000, 1051/1000⟩] := by
    simp [sortNotes, List.insertionSort, List.orderedInsert, keyLe]
    norm_num
  have hphones : voicedPhones defaultRepairCfg [((1 : ℚ), (11/10 : ℚ), "ta")] =
      [((1 : ℚ), (11/10 : ℚ), "ta")] := by
    simp [voicedPhones, defaultRepairCfg, List.filter]
    norm_num
  have hcov : covOf 1 (11/10)
      [(⟨62, 80, 9/10, 1⟩ : MNote), ⟨60, 80, 1049/1000, 1051/1000⟩] = 1/500 := by
    norm_num [covOf, overlapQ, max_def, min_def]
  have hfpn : find_prev_next
      [(⟨62, 80, 9/10, 1⟩ : MNote), ⟨60, 80, 1049/1000, 1051/1000⟩] ((1 + 11/10) * (1/2)) =
      (some ⟨62, 80, 9/10, 1⟩, none) := by
    norm_num [find_prev_next, fpnGo]
  have hstep : repairStep defaultRepairCfg
      [(⟨62, 80, 9/10, 1⟩ : MNote), ⟨60, 80, 1049/1000, 1051/1000⟩] 1 (11/10) =
      some ⟨62, 64, 1, 11/10⟩ := by
    rw [repairStep]
    rw [if_neg (by norm_num [defaultRepairCfg])]
    rw [if_neg (by rw [hcov]; norm_num [defaultRepairCfg])]
    rw [hfpn]
    norm_num [defaultRepairCfg, max_def, min_def]
  rw [repairInserted, hphones, hsort]
  simp only [List.filterMap]
  rw [hstep]

/-- Claim C3 counterexample: The repairer inserts the note `[1, 1.1)` even
though the note `[1.049, 1.051)` was already present: the inserted note
strictly overlaps an existing note (`1 < 1.051` and `1.049 < 1.1`), because a
note straddling the interval midpoint is neither the `prev` nor the `next`
neighbor used for clipping. -/
theorem inserted_note_overlaps_existing :
    repairInserted defaultRepairCfg
      [⟨62, 80, 9/10, 1⟩, ⟨60, 80, 1049/1000, 1051/1000⟩]
      [((1 : ℚ), (11/10 : ℚ), "ta")] = [⟨62, 64, 1, 11/10⟩] ∧
    (1 : ℚ) < 1051/1000 ∧ (1049/1000 : ℚ) < 11/10 :=
  ⟨repairInserted_c3_eval, by norm_num, by norm_num⟩

/-- Coverage property of the final repair merge: merging only extends —
every input note is represented by an output note of the same pitch whose
span contains it (requires the input sorted by start time). -/
theorem mergeRepairGo_covers :
    ∀ (l : List MNote) (m : MNote),
      List.Sorted (fun a b : MNote => a.start ≤ b.start) (m :: l) →
      ∀ n ∈ m :: l, ∃ r ∈ mergeRepairGo m l,
        r.pitch = n.pitch ∧ r.start ≤ n.start ∧ n.stop ≤ r.stop := by
  intro l
  induction l with
  | nil =>
    intro m _ n hn
    exact ⟨m, List.mem_singleton_self m, by rw [List.mem_singleton.mp hn],
      by rw [List.mem_singleton.mp hn], by rw [List.mem_singleton.mp hn]⟩
  | cons x rest ih =>
    intro m hs n hn
    rcases List.sorted_cons.mp hs with ⟨hmall, hs'⟩
    by_cases hc : x.pitch = m.pitch ∧ x.start - m.stop ≤ 1/50
    · rw [mergeRepairGo, if_pos hc]
      have hs'' : List.Sorted (fun a b : MNote => a.start ≤ b.start)
          ((⟨m.pitch, m.velocity, m.start, max m.stop x.stop⟩ : MNote) :: rest) := by
        refine List.sorted_cons.mpr ⟨?_, (List.sorted_cons.mp hs').2⟩
        intro b hb
        exact hmall b (List.mem_cons_of_mem x hb)
      rcases List.mem_cons.mp hn with hn1 | hn2
      · obtain ⟨r, hr, h1, h2, h3⟩ := ih ⟨m.pitch, m.velocity, m.start, max m.stop x.stop⟩
          hs'' ⟨m.pitch, m.velocity, m.start, max m.stop x.stop⟩ (List.mem_cons_self _ _)
        refine ⟨r, hr, ?_, ?_, ?_⟩
        · rw [hn1]; exact h1
        · rw [hn1]; exact h2
        · rw [hn1]
          exact le_trans (le_max_left m.stop x.stop) h3
      rcases List.mem_cons.mp hn2 with hn3 | hn4
      · obtain ⟨r, hr, h1, h2, h3⟩ := ih ⟨m.pitch, m.velocity, m.start, max m.stop x.stop⟩
          hs'' ⟨m.pitch, m.velocity, m.start, max m.stop x.stop⟩ (List.mem_cons_self _ _)
        refine ⟨r, hr, ?_, ?_, ?_⟩
        · rw [hn3, hc.1]; exact h1
        · rw [hn3]
          exact le_trans h2 (hmall x (List.mem_cons_self x rest))
        · rw [hn3]
          exact le_trans (le_max_right m.stop x.stop) h3
      · exact ih ⟨m.pitch, m.velocity, m.start, max m.stop x.stop⟩ hs'' n
          (List.mem_cons_of_mem _ hn4)
    · rw [mergeRepairGo, if_neg hc]
      rcases List.mem_cons.mp hn with hn1 | hn2
      · exact ⟨m, List.mem_cons_self _ _, by rw [hn1], by rw [hn1], by rw [hn1]⟩
      · obtain ⟨r, hr, h1, h2, h3⟩ := ih x hs' n hn2
        exact ⟨r, List.mem_cons_of_mem m hr, h1, h2, h3⟩

/-- The sorted note list is sorted by start time. -/
theorem sortNotes_sorted_start (l : List MNote) :
    List.Sorted (fun a b : MNote => a.start ≤ b.start) (sortNotes l) := by
  have h := List.sorted_insertionSort keyLe l
  refine h.imp ?_
  intro a b hab
  rcases hab with h1 | ⟨h1, _⟩
  · exact le_of_lt h1
  · exact le_of_eq h1

/-- Membership transfers into the sorted note list. -/
theorem mem_sortNotes {n : MNote} {l : List MNote} (h : n ∈ l) : n ∈ sortNotes l :=
  (List.perm_insertionSort keyLe l).symm.subset h

/-- Claim C3 amended: The repair pass never removes or shortens the span of a
note present before it ran: every original note is represented in the output
by a note of the same pitch whose span contains the original (the final merge
can only coalesce and extend).  Inserted notes are clipped only against the
chosen `prev`/`next` neighbors and may overlap a note that straddles the
interval midpoint (see the counterexample). -/
theorem repair_never_removes (cfg : RepairCfg) (notes0 : List MNote)
    (phonemes : List (ℚ × ℚ × String)) :
    ∀ n ∈ notes0, ∃ m ∈ repair_micro_gaps cfg notes0 phonemes,
      m.pitch = n.pitch ∧ m.start ≤ n.start ∧ n.stop ≤ m.stop := by
  intro n hn
  unfold repair_micro_gaps
  by_cases h1 : voicedPhones cfg phonemes = []
  · rw [if_pos h1]
    exact ⟨n, hn, rfl, le_refl _, le_refl _⟩
  · rw [if_neg h1]
    by_cases h2 : repairInserted cfg notes0 phonemes = []
    · simp only [h2, if_pos]
      exact ⟨n, hn, rfl, le_refl _, le_refl _⟩
    · simp only [h2, if_neg, reduceIte]
      have hmem : n ∈ sortNotes (notes0 ++ repairInserted cfg notes0 phonemes) :=
        mem_sortNotes (List.mem_append_left _ hn)
      have hsorted := sortNotes_sorted_start (notes0 ++ repairInserted cfg notes0 phonemes)
      cases hlist : sortNotes (notes0 ++ repairInserted cfg notes0 phonemes) with
      | nil => rw [hlist] at hmem; simp at hmem
      | cons m0 t =>
        rw [hlist] at hmem hsorted
        exact mergeRepairGo_covers t m0 hsorted n hmem

/-- Witness for `repair_never_removes`: with no phoneme data, the pass is a
no-op and the single note `[0, 1)` at pitch 60 survives intact. -/
theorem repair_never_removes_witness :
    ∃ m ∈ repair_micro_gaps defaultRepairCfg [⟨60, 80, 0, 1⟩] [],
      m.pitch = (60 : ℤ) ∧ m.start ≤ (0 : ℚ) ∧ (1 : ℚ) ≤ m.stop :=
  repair_never_removes defaultRepairCfg [⟨60, 80, 0, 1⟩] [] ⟨60, 80, 0, 1⟩
    (List.mem_singleton_self _)

/-! ### Helper lemmas for the frequency conversion (C1) -/

/-- Bounds for 466 Hz: `1/2 ≤ 12*log2(466/440) < 1`, i.e. 466 Hz sits in the
upper half of the semitone between pitch 69 and pitch 70. -/
theorem logb_466_bounds :
    1/2 ≤ 12 * Real.logb 2 ((466 : ℝ) / 440) ∧
    12 * Real.logb 2 ((466 : ℝ) / 440) < 1 := by
  have hb : (1 : ℝ) < 2 := one_lt_two
  constructor
  · have h24 : (2 : ℝ) ≤ ((466 : ℝ) / 440) ^ (24 : ℕ) := by
      rw [div_pow, le_div_iff₀ (by positivity)]
      norm_num
    have hlog : (1 : ℝ) ≤ Real.logb 2 (((466 : ℝ) / 440) ^ (24 : ℕ)) := by
      calc (1 : ℝ) = Real.logb 2 2 := (Real.logb_self_eq_one hb).symm
      _ ≤ _ := Real.logb_le_logb_of_le hb (by norm_num) h24
    rw [Real.logb_pow] at hlog
    push_cast at hlog
    linarith
  · have h12 : ((466 : ℝ) / 440) ^ (12 : ℕ) < 2 := by
      rw [div_pow, div_lt_iff₀ (by positivity)]
      norm_num
    have hlog : Real.logb 2 (((466 : ℝ) / 440) ^ (12 : ℕ)) < 1 := by
      calc Real.logb 2 (((466 : ℝ) / 440) ^ (12 : ℕ)) < Real.logb 2 2 :=
        Real.logb_lt_logb hb (by positivity) h12
      _ = 1 := Real.logb_self_eq_one hb
    rw [Real.logb_pow] at hlog
    push_cast at hlog
    linarith

/-- Claim C1 counterexample: 466 Hz maps to pitch 69 under the code's
conversion (`int` truncates), while nearest-integer rounding as the claim
states gives 70. -/
theorem conversion_truncates_466 :
    hz_to_midi_note 466 = 69 ∧ hzToMidiNearestSpec 466 = 70 := by
  obtain ⟨hlo, hhi⟩ := logb_466_bounds
  have hcast : ((466 : ℚ) : ℝ) / 440 = (466 : ℝ) / 440 := by norm_num
  constructor
  · rw [hz_to_midi_note, if_neg (by norm_num), pyTrunc, hcast,
      if_pos (by linarith)]
    refine Int.floor_eq_iff.mpr ⟨?_, ?_⟩
    · push_cast
      linarith
    · push_cast
      linarith
  · rw [hzToMidiNearestSpec, hcast, round_eq]
    refine Int.floor_eq_iff.mpr ⟨?_, ?_⟩
    · push_cast
      linarith
    · push_cast
      linarith

/-- Claim C1 amended: For every pitch `n ≥ 1` and every positive frequency,
the code's conversion returns `n` exactly when the frequency lies in the
floor band `[440·2^((n-69)/12), 440·2^((n-68)/12))`: the conversion is the
floor of the exact semitone value (downward-biased truncation), not
nearest-integer rounding, so 466 Hz maps to 69, not 70. -/
theorem conversion_floor_band (hz : ℚ) (n : ℤ) (hn : 1 ≤ n) (hpos : 0 < hz) :
    hz_to_midi_note hz = n ↔
      (440 : ℝ) * 2 ^ (((n : ℝ) - 69) / 12) ≤ (hz : ℝ) ∧
      (hz : ℝ) < 440 * 2 ^ (((n : ℝ) - 68) / 12) := by
  have hb : (1 : ℝ) < 2 := one_lt_two
  have hzr : (0 : ℝ) < (hz : ℝ) := by exact_mod_cast hpos
  have hq : (0 : ℝ) < (hz : ℝ) / 440 := by positivity
  have hnr : (1 : ℝ) ≤ (n : ℝ) := by exact_mod_cast hn
  rw [hz_to_midi_note, if_neg (not_le.mpr hpos)]
  set L := Real.logb 2 ((hz : ℝ) / 440) with hL
  have hlow : ((n : ℝ) - 69) / 12 ≤ L ↔
      (440 : ℝ) * 2 ^ (((n : ℝ) - 69) / 12) ≤ (hz : ℝ) := by
    rw [hL, Real.le_logb_iff_rpow_le hb hq, le_div_iff₀ (by norm_num : (0 : ℝ) < 440),
      mul_comm]
  have hhigh : L < ((n : ℝ) - 68) / 12 ↔
      (hz : ℝ) < 440 * 2 ^ (((n : ℝ) - 68) / 12) := by
    rw [hL, Real.logb_lt_iff_lt_rpow hb hq, div_lt_iff₀ (by norm_num : (0 : ℝ) < 440),
      mul_comm]
  rw [← hlow, ← hhigh]
  unfold pyTrunc
  by_cases hx : (0 : ℝ) ≤ 69 + 12 * L
  · rw [if_pos hx, Int.floor_eq_iff]
    constructor
    · rintro ⟨ha, hb'⟩
      constructor <;> linarith
    · rintro ⟨ha, hb'⟩
      constructor <;> linarith
  · rw [if_neg hx]
    constructor
    · intro h
      exfalso
      have hc : (⌈(69 : ℝ) + 12 * L⌉ : ℤ) ≤ 0 :=
        Int.ceil_le.mpr (by push_cast; linarith [not_le.mp hx])
      rw [h] at hc
      omega
    · rintro ⟨ha, _⟩
      exfalso
      exact hx (by linarith)

/-- Witness for `conversion_floor_band`: 440 Hz lies in the band of pitch 69
(`440·2^0 ≤ 440 < 440·2^(1/12)`), so the conversion returns 69 there. -/
theorem conversion_floor_band_witness : hz_to_midi_note 440 = 69 := by
  refine (conversion_floor_band 440 69 (by norm_num) (by norm_num)).mpr ⟨?_, ?_⟩
  · push_cast
    rw [show ((69 : ℝ) - 69) / 12 = 0 from by norm_num, Real.rpow_zero]
    norm_num
  · push_cast
    rw [show ((69 : ℝ) - 68) / 12 = 1/12 from by norm_num]
    have h1 : (1 : ℝ) < 2 ^ ((1 : ℝ)/12) :=
      (Real.one_lt_rpow_iff_of_pos (by norm_num)).mpr (Or.inl ⟨one_lt_two, by norm_num⟩)
    nlinarith
